import Mathlib

/-!
Verification of the aeronet benchmark-orchestration engine
(src/benchmarks/scripted-servers/run_benchmarks.py) against its
natural-language specification.

Modelling conventions: Python floats are exact rationals, Python ints are
Lean integers, Python strings are Lean strings with the library methods
(strip, lower, startswith, split, int and float conversion) modelled
explicitly on character lists so that concrete runs reduce in the kernel.
The two-decimal f-string rendering rounds the exact rational half to even,
which agrees with CPython on every value these claims touch.
-/

namespace Aeronet

/-! ### Python string primitives -/

/-- Model of str.strip on a character list: drop whitespace from both ends. -/
def trimChars (cs : List Char) : List Char :=
  ((cs.dropWhile Char.isWhitespace).reverse.dropWhile Char.isWhitespace).reverse

/-- Model of str.strip. -/
def pyStrip (s : String) : String :=
  String.mk (trimChars s.toList)

/-- Model of str.lower (ASCII case folding suffices for the tool output). -/
def pyLower (s : String) : String :=
  String.mk (s.toList.map Char.toLower)

/-- Model of str.startswith. -/
def pyStartsWith (s prefixStr : String) : Bool :=
  prefixStr.toList.isPrefixOf s.toList

/-- Split a character list at every occurrence of a separator character. -/
def splitCharsOn (sep : Char) : List Char → List Char → List (List Char)
  | [], acc => [acc.reverse]
  | c :: rest, acc =>
    if c = sep then acc.reverse :: splitCharsOn sep rest []
    else splitCharsOn sep rest (c :: acc)

/-- Model of str.splitlines for the newline-delimited tool output.  Unlike
Python this keeps a final empty chunk after a trailing newline; every
consumer in scope ignores lines that match no marker, so the result is
observationally the same. -/
def pyLines (s : String) : List String :=
  (splitCharsOn (Char.ofNat 10) s.toList []).map String.mk

/-- Characters after the first occurrence of a separator, or none when the
separator is absent.  Models line.split(sep, 1)[1] together with the
IndexError that Python raises when the separator does not occur. -/
def afterFirst (sep : Char) : List Char → Option (List Char)
  | [] => none
  | c :: rest => if c = sep then some rest else afterFirst sep rest

/-- Model of line.split(colon, 1)[1] as an optional string. -/
def colonRest (l : String) : Option String :=
  (afterFirst ':' l.toList).map String.mk

/-- Numeric value of a decimal digit list. -/
def natOfDigits (cs : List Char) : ℕ :=
  cs.foldl (fun a c => a * 10 + (c.toNat - 48)) 0

/-- Model of the Python int constructor on strings: surrounding whitespace
is ignored, an optional sign is followed by at least one decimal digit;
anything else raises, modelled as none. -/
def pyInt? (s : String) : Option ℤ :=
  match trimChars s.toList with
  | [] => none
  | '-' :: ds =>
    if ds ≠ [] ∧ ds.all Char.isDigit then some (-(natOfDigits ds : ℤ)) else none
  | '+' :: ds =>
    if ds ≠ [] ∧ ds.all Char.isDigit then some ((natOfDigits ds : ℤ)) else none
  | ds =>
    if ds.all Char.isDigit then some ((natOfDigits ds : ℤ)) else none

/-- Value of an unsigned decimal literal given its integer and fractional
digit lists. -/
def decimalValue (d1 d2 : List Char) : ℚ :=
  (natOfDigits (d1 ++ d2) : ℚ) / 10 ^ d2.length

/-- Unsigned decimal literal parser used by the float model. -/
def parseUnsignedFloat? (cs : List Char) : Option ℚ :=
  let d1 := cs.takeWhile Char.isDigit
  match cs.dropWhile Char.isDigit with
  | [] => if d1 = [] then none else some (decimalValue d1 [])
  | '.' :: rest2 =>
    let d2 := rest2.takeWhile Char.isDigit
    if rest2.dropWhile Char.isDigit = [] ∧ (d1 ≠ [] ∨ d2 ≠ []) then
      some (decimalValue d1 d2)
    else none
  | _ => none

/-- Model of the Python float constructor restricted to optionally signed
plain decimal literals, the only shapes the result store ever holds;
exponent, infinity and nan forms are out of scope and map to none. -/
def parseFloat? (s : String) : Option ℚ :=
  match trimChars s.toList with
  | '-' :: rest => (parseUnsignedFloat? rest).map Neg.neg
  | '+' :: rest => parseUnsignedFloat? rest
  | cs => parseUnsignedFloat? cs

/-! ### Two-decimal float rendering -/

/-- Round a rational to the nearest integer, ties to even.  Models the
rounding performed by the CPython format spec used in the script. -/
def roundHalfEven (q : ℚ) : ℤ :=
  let f : ℤ := ⌊q⌋
  let r : ℚ := q - f
  if r < 1 / 2 then f
  else if 1 / 2 < r then f + 1
  else if f % 2 = 0 then f else f + 1

/-- Two-digit zero-padded rendering of an integer in the range 0..99. -/
def twoDigits (n : ℤ) : String :=
  if n < 10 then "0" ++ toString n else toString n

/-- Render a nonnegative count of hundredths as a fixed-point decimal. -/
def formatHundredths (n : ℤ) : String :=
  toString (n / 100) ++ "." ++ twoDigits (n % 100)

/-- Model of the Python two-decimal float rendering used throughout the
script, on exact rationals. -/
def formatQ2 (q : ℚ) : String :=
  if q < 0 then "-" ++ formatHundredths (roundHalfEven (-(q * 100)))
  else formatHundredths (roundHalfEven (q * 100))

/-! ### Result store, suite driver and winner computation -/

/-- The per-pair result dictionaries of BenchmarkRunner, modelled as maps
from (server, scenario) keys to optional stored values. -/
structure ResultsState where
  rps : String × String → Option String
  rpsRaw : String × String → Option String
  latency : String × String → Option String
  latencyRaw : String × String → Option String
  transfer : String × String → Option String
  timeouts : String × String → Option ℤ

/-- Dictionary assignment. -/
def updateMap {α : Type} (m : String × String → Option α)
    (k : String × String) (v : α) : String × String → Option α :=
  fun q => if q = k then some v else m q

/-- The empty result store of a fresh runner. -/
def emptyResults : ResultsState :=
  ⟨fun _ => none, fun _ => none, fun _ => none, fun _ => none,
    fun _ => none, fun _ => none⟩

/-- Embedding of BenchmarkRunner._store_result (run_benchmarks.py lines
1255-1274): raw values default to the adjusted ones and the timeout count
is only written when provided. -/
def storeResult (server scenario rpsVal latencyVal transferVal : String)
    (rpsRawVal latencyRawVal : Option String) (timeoutErrorsVal : Option ℤ)
    (st : ResultsState) : ResultsState :=
  { rps := updateMap st.rps (server, scenario) rpsVal
    rpsRaw := updateMap st.rpsRaw (server, scenario) (rpsRawVal.getD rpsVal)
    latency := updateMap st.latency (server, scenario) latencyVal
    latencyRaw :=
      updateMap st.latencyRaw (server, scenario) (latencyRawVal.getD latencyVal)
    transfer := updateMap st.transfer (server, scenario) transferVal
    timeouts :=
      match timeoutErrorsVal with
      | some t => updateMap st.timeouts (server, scenario) t
      | none => st.timeouts }

/-- Control-flow embedding of BenchmarkRunner._run_server_suite
(run_benchmarks.py lines 572-609) as a transformer of the result store.
The catalog membership test, the restart split, the readiness outcome of
_start_server and the store effect of a measured _run_single call are
parameters; warm-up passes write nothing to the store and are omitted, as
are the subprocess side effects.  When the server never reports ready,
startOk is false for every start attempt. -/
def runServerSuite (scenariosToTest : List String)
    (isKnown requiresRestart : String → Bool) (startOk : Bool)
    (runSingle : String → String → ResultsState → ResultsState)
    (server : String) (st : ResultsState) : ResultsState :=
  let scenarios := scenariosToTest.filter isKnown
  let normal := scenarios.filter (fun sc => ! requiresRestart sc)
  let special := scenarios.filter (fun sc => requiresRestart sc)
  let st1 :=
    if normal ≠ [] ∧ startOk then
      normal.foldl (fun s sc => runSingle server sc s) st
    else st
  special.foldl
    (fun s sc =>
      if sc = "tls" ∧ server ≠ "aeronet" then s
      else if startOk then runSingle server sc s
      else s) st1

/-- Loop of BenchmarkRunner._best_server_for_scenario (run_benchmarks.py
lines 1753-1766): running best name and best value, values that are
missing, empty, the sentinel dash or unparseable are skipped, and only a
strictly greater value displaces the running best. -/
def bestLoop (get : String × String → Option String) (scenario : String) :
    List String → String → ℚ → String
  | [], bestName, _ => bestName
  | server :: rest, bestName, bestVal =>
    match get (server, scenario) with
    | none => bestLoop get scenario rest bestName bestVal
    | some v =>
      if v = "" ∨ v = "-" then bestLoop get scenario rest bestName bestVal
      else
        match parseFloat? v with
        | none => bestLoop get scenario rest bestName bestVal
        | some x =>
          if bestVal < x then bestLoop get scenario rest server x
          else bestLoop get scenario rest bestName bestVal

/-- Embedding of BenchmarkRunner._best_server_for_scenario: the loop
starts from the empty name and the value zero. -/
def bestServerForScenario (serversToTest : List String)
    (get : String × String → Option String) (scenario : String) : String :=
  bestLoop get scenario serversToTest "" 0

/-- The value a server contributes to the winner loop: its stored string
when present, non-empty, not the sentinel and numeric. -/
def qualValue (get : String × String → Option String)
    (scenario server : String) : Option ℚ :=
  match get (server, scenario) with
  | none => none
  | some v => if v = "" ∨ v = "-" then none else parseFloat? v

/-- A concrete measurement effect used by counterexamples and witnesses:
the store write a successful _run_single performs. -/
def demoRunSingle : String → String → ResultsState → ResultsState :=
  fun server scenario st =>
    storeResult server scenario "1000.00" "1.00ms" "1.00MB/s" none none
      (some 0) st

/-- A concrete result store carrying one stored all-errors value. -/
def zeroRpsGet : String × String → Option String :=
  fun k => if k = ("srvA", "headers") then some "0.00" else none

/-- A concrete result store carrying two equal positive stored values. -/
def posRpsGet : String × String → Option String :=
  fun k =>
    if k = ("srvA", "headers") then some "5.00"
    else if k = ("srvB", "headers") then some "5.00"
    else none

/-! ### h2load crash-tolerant retry ladder -/

/-- Outcome of one _exec_h2load invocation: the combined textual output and
the crashed flag (timeout or non-zero exit), per run_benchmarks.py lines
1061-1090.  The external tool is opaque; an execution trace is modelled as
a function from the invocation counter to its outcome. -/
structure AttemptResult where
  output : String
  crashed : Bool

/-- Result of the retry logic of _run_single_h2load: the selected output,
the final crashed flag, and the executed attempts in order as pairs of the
connection count used and the attempt outcome. -/
structure H2Outcome where
  output : String
  crashed : Bool
  trace : List (ℕ × AttemptResult)

/-- The retry loop over the divisor ladder of BenchmarkRunner.
_run_single_h2load (run_benchmarks.py lines 984-1008): each divisor yields
a retry connection count floored at four, the loop breaks when that count
is not below the original, a non-crashing retry ends the ladder with its
output, and a crashing retry keeps whichever output has strictly more
succeeded requests (the parse of the succeeded field is the succ
parameter). -/
def h2LadderGo (conns : ℕ) (exec : ℕ → AttemptResult) (succ : String → ℕ) :
    List ℕ → ℕ → String → String × Bool × List (ℕ × AttemptResult)
  | [], _, out => (out, true, [])
  | d :: rest, k, out =>
    let rc := max (conns / d) 4
    if conns ≤ rc then (out, true, [])
    else
      let r := exec k
      if r.crashed then
        let next := h2LadderGo conns exec succ rest (k + 1)
          (if succ out < succ r.output then r.output else out)
        (next.1, next.2.1, (rc, r) :: next.2.2)
      else (r.output, false, [(rc, r)])

/-- The crash-and-retry phase of _run_single_h2load: the original attempt
followed, only when it crashed, by the divisor ladder over 4 and 16. -/
def h2Ladder (conns : ℕ) (exec : ℕ → AttemptResult) (succ : String → ℕ) :
    H2Outcome :=
  let orig := exec 0
  if orig.crashed then
    let r := h2LadderGo conns exec succ [4, 16] 1 orig.output
    ⟨r.1, r.2.1, (conns, orig) :: r.2.2⟩
  else ⟨orig.output, false, [(conns, orig)]⟩

/-- The hard-failure test of _run_single_h2load line 1013: still crashed
after the ladder and zero succeeded requests in the selected output. -/
def h2HardFailure (succ : String → ℕ) (o : H2Outcome) : Bool :=
  o.crashed && (succ o.output == 0)

/-- The store effect of the tail of _run_single_h2load (lines 1013-1054):
a hard failure stores the sentinel metrics with an error block, otherwise
the metrics computed from the selected output are stored. -/
def h2RecordResult (server scenario : String) (succ : String → ℕ)
    (computeStore : String → ResultsState → ResultsState) (o : H2Outcome)
    (st : ResultsState) : ResultsState :=
  if o.crashed && (succ o.output == 0) then
    storeResult server scenario "-" "-" "-" none (some "-") (some 0) st
  else computeStore o.output st

/-- An execution trace in which every h2load attempt crashes, the attempt
number being its output text. -/
def cexExec : ℕ → AttemptResult := fun n => ⟨toString n, true⟩

/-- An execution trace in which the original attempt crashes and the first
retry succeeds. -/
def cexExec2 : ℕ → AttemptResult := fun n => ⟨toString n, !(n == 1)⟩

/-- A succeeded-request count reader under which the first retry produced
five succeeded requests and every other attempt none. -/
def cexSucc : String → ℕ := fun s => if s = "1" then 5 else 0

/-! ### Memory telemetry collector -/

/-- One /proc status snapshot entry: the process id, its parent id, and
the optional memory counters and thread count the status text reports.
The kernel-provided text is external; its trivially structured fields are
the model boundary. -/
structure ProcEntry where
  pid : ℕ
  ppid : ℕ
  vmRss : Option ℕ
  vmPeak : Option ℕ
  vmHwm : Option ℕ
  vmSize : Option ℕ
  vmSwap : Option ℕ
  threads : Option ℕ
deriving DecidableEq

/-- The MemoryStats dataclass of run_benchmarks.py lines 57-64: every
field nullable, absence meaning not observed. -/
structure MemoryStats where
  rssKb : Option ℕ
  peakKb : Option ℕ
  hwmKb : Option ℕ
  vmSizeKb : Option ℕ
  vmSwapKb : Option ℕ
  threadCount : Option ℕ
deriving DecidableEq

/-- Reading /proc/p/status in the snapshot: none when the process is gone. -/
def statusEntry (table : List ProcEntry) (p : ℕ) : Option ProcEntry :=
  table.find? (fun e => e.pid == p)

/-- The pids whose recorded parent is the given process, from the
ppid map built by scanning all live processes (lines 1653-1673). -/
def childrenOf (table : List ProcEntry) (cur : ℕ) : List ℕ :=
  (table.filter (fun e => e.ppid == cur)).map ProcEntry.pid

/-- The worklist loop of _read_memory_stats (run_benchmarks.py lines
1675-1685) collecting the descendant set: pop a pid, skip it when already
collected, otherwise record it and enqueue its children.  The loop is
driven by an explicit fuel argument large enough to reach the fixpoint;
the pop order differs from the Python stack order, which cannot change
the resulting set. -/
def collectDescendants (table : List ProcEntry) :
    ℕ → List ℕ → List ℕ → List ℕ
  | 0, _, acc => acc
  | _ + 1, [], acc => acc
  | fuel + 1, cur :: rest, acc =>
    if cur ∈ acc then collectDescendants table fuel rest acc
    else collectDescendants table fuel (childrenOf table cur ++ rest)
      (cur :: acc)

/-- Fuel bound sufficient for the worklist to reach its fixpoint. -/
def descendantsFuel (table : List ProcEntry) : ℕ :=
  1 + (table.length + 2) * (table.length + 1)

/-- The transitive descendant set of a root pid, root included, as the
duplicate-free list the worklist collects. -/
def descendants (table : List ProcEntry) (pid : ℕ) : List ℕ :=
  collectDescendants table (descendantsFuel table) [pid] []

/-- The parent-to-child edge relation recorded in the snapshot. -/
def childStep (table : List ProcEntry) (a b : ℕ) : Prop :=
  b ∈ childrenOf table a

/-- The termination measure of the worklist: pids still reachable but not
yet collected, bounded by the table pids plus the worklist itself. -/
def measureCard (table : List ProcEntry) (toVisit : List ℕ)
    (acc : List ℕ) : ℕ :=
  (((table.map ProcEntry.pid).toFinset ∪ toVisit.toFinset)
    \ acc.toFinset).card

/-- Fuel sufficiency invariant of the worklist: enough fuel remains to pop
the whole worklist and to process every still-uncollected pid together
with its enqueued children. -/
def collectInv (table : List ProcEntry) (fuel : ℕ) (toVisit : List ℕ)
    (acc : List ℕ) : Prop :=
  toVisit.length + (measureCard table toVisit acc + 1) * (table.length + 1)
    ≤ fuel

/-- The field summation of _read_memory_stats (lines 1687-1720): each
present field is added onto the accumulator, which starts absent and
becomes zero-based on the first contribution (the Python value-or-zero
idiom). -/
def aggField (entries : List ProcEntry) (f : ProcEntry → Option ℕ) :
    Option ℕ :=
  entries.foldl
    (fun acc e =>
      match f e with
      | some v => some (acc.getD 0 + v)
      | none => acc)
    none

/-- Sum of a contribution list, absent when there is no contribution. -/
def optionSum (xs : List ℕ) : Option ℕ :=
  match xs with
  | [] => none
  | _ => some xs.sum

/-- Insert a number into a sorted list, keeping it sorted. -/
def insertSorted (n : ℕ) : List ℕ → List ℕ
  | [] => [n]
  | m :: rest => if n ≤ m then n :: m :: rest else m :: insertSorted n rest

/-- The sorted pid iteration order of the Python sorted builtin, as an
insertion sort. -/
def sortPids (s : List ℕ) : List ℕ :=
  s.foldr insertSorted []

/-- Embedding of BenchmarkRunner._read_memory_stats (run_benchmarks.py
lines 1644-1720): none when the root status is unavailable, otherwise the
per-field sums over the sorted descendant pids still present in the
snapshot. -/
def readMemoryStats (table : List ProcEntry) (pid : ℕ) :
    Option MemoryStats :=
  if (statusEntry table pid).isSome then
    let entries := (sortPids (descendants table pid)).filterMap
      (statusEntry table)
    some ⟨aggField entries (fun e => e.vmRss),
      aggField entries (fun e => e.vmPeak),
      aggField entries (fun e => e.vmHwm),
      aggField entries (fun e => e.vmSize),
      aggField entries (fun e => e.vmSwap),
      aggField entries (fun e => e.threads)⟩
  else none

/-- A concrete snapshot: root 10 with no resident-size field, child 11
with 100 KB, grandchild 12 with 250 KB, and an unrelated process 99. -/
def demoProcTable : List ProcEntry :=
  [⟨10, 1, none, none, none, none, none, some 2⟩,
   ⟨11, 10, some 100, none, none, none, none, some 1⟩,
   ⟨12, 11, some 250, none, none, none, none, some 1⟩,
   ⟨99, 1, some 777, none, none, none, none, some 1⟩]

theorem roundHalfEven_intCast (n : ℤ) : roundHalfEven (n : ℚ) = n := by
  unfold roundHalfEven
  rw [Int.floor_intCast]
  norm_num

theorem formatQ2_eq_hundredths (q : ℚ) (n : ℤ) (hq : 0 ≤ q)
    (h : q * 100 = (n : ℚ)) : formatQ2 q = formatHundredths n := by
  unfold formatQ2
  rw [if_neg (not_lt.mpr hq), h, roundHalfEven_intCast]

/-! ### Success-adjusted throughput -/

/-- Embedding of BenchmarkRunner._compute_success_rps (run_benchmarks.py
lines 1337-1347).  The measured duration is an optional rational; the Python
guard (measured is not None and measured greater than zero) is the match
plus the positivity test. -/
def computeSuccessRps (rawRps : String) (totalRequests totalErrors : ℤ)
    (measuredDurationSeconds : Option ℚ) : String :=
  match measuredDurationSeconds with
  | some d =>
    if 0 < d then
      formatQ2 ((↑(max 0 (totalRequests - max 0 totalErrors)) : ℚ) / d)
    else rawRps
  | none => rawRps

/-- C2: for every raw rate string, non-negative integer totals and positive
duration, the success-adjusted throughput is max(0, requests minus errors)
divided by the duration, rendered with two decimals and never negative; at
1000 requests, 50 errors, 10 seconds it is exactly the string 95.00. -/
theorem success_rps_formula (raw : String) (tr te : ℤ) (d : ℚ)
    (htr : 0 ≤ tr) (hte : 0 ≤ te) (hd : 0 < d) :
    computeSuccessRps raw tr te (some d)
        = formatQ2 ((↑(max 0 (tr - te)) : ℚ) / d)
      ∧ (0 : ℚ) ≤ (↑(max 0 (tr - te)) : ℚ) / d
      ∧ computeSuccessRps raw 1000 50 (some 10) = "95.00" := by
  refine ⟨?_, ?_, ?_⟩
  · simp only [computeSuccessRps, if_pos hd, max_eq_right hte]
  · exact div_nonneg (by exact_mod_cast le_max_left 0 (tr - te)) (le_of_lt hd)
  · have h1 : (max 0 (1000 - max 0 50) : ℤ) = 950 := by decide
    simp only [computeSuccessRps, if_pos (by norm_num : (0 : ℚ) < 10), h1]
    rw [formatQ2_eq_hundredths (((950 : ℤ) : ℚ) / 10) 9500 (by norm_num)
      (by norm_num)]
    decide

theorem success_rps_formula_witness :
    computeSuccessRps "12.34" 1000 50 (some 10)
        = formatQ2 ((↑(max 0 (1000 - 50 : ℤ)) : ℚ) / 10)
      ∧ (0 : ℚ) ≤ (↑(max 0 (1000 - 50 : ℤ)) : ℚ) / 10
      ∧ computeSuccessRps "12.34" 1000 50 (some 10) = "95.00" :=
  success_rps_formula "12.34" 1000 50 10 (by norm_num) (by norm_num) (by norm_num)

/-- C3 counterexample: with the measured duration available (10 seconds) and
the request totals unavailable (the call sites default absent totals to
zero), the computation does not fall back to the raw rate: it returns the
string 0.00 instead of the raw 123.45. -/
theorem success_rps_totals_no_fallback_cex :
    computeSuccessRps "123.45" 0 0 (some 10) = "0.00"
      ∧ computeSuccessRps "123.45" 0 0 (some 10) ≠ "123.45" := by
  have h1 : (max 0 (0 - max 0 0) : ℤ) = 0 := by decide
  have h2 : computeSuccessRps "123.45" 0 0 (some 10) = "0.00" := by
    simp only [computeSuccessRps, if_pos (by norm_num : (0 : ℚ) < 10), h1]
    rw [formatQ2_eq_hundredths (((0 : ℤ) : ℚ) / 10) 0 (by norm_num) (by norm_num)]
    decide
  exact ⟨h2, by rw [h2]; decide⟩

/-- C3 amended: the computation falls back to the raw reported rate exactly
when the measured duration is unavailable or non-positive; an available
positive duration always yields the computed two-decimal value, with absent
totals treated as zero rather than triggering a fallback. -/
theorem success_rps_fallback_iff_duration (raw : String) (tr te : ℤ) (d : ℚ) :
    computeSuccessRps raw tr te none = raw
      ∧ (d ≤ 0 → computeSuccessRps raw tr te (some d) = raw)
      ∧ (0 < d → computeSuccessRps raw tr te (some d)
          = formatQ2 ((↑(max 0 (tr - max 0 te)) : ℚ) / d)) := by
  refine ⟨rfl, ?_, ?_⟩
  · intro hle
    simp only [computeSuccessRps, if_neg (not_lt.mpr hle)]
  · intro hlt
    simp only [computeSuccessRps, if_pos hlt]

theorem success_rps_fallback_iff_duration_witness :
    computeSuccessRps "77.00" 5 3 none = "77.00"
      ∧ computeSuccessRps "77.00" 5 3 (some (-2)) = "77.00"
      ∧ computeSuccessRps "77.00" 5 3 (some 2)
          = formatQ2 ((↑(max 0 (5 - max 0 3 : ℤ)) : ℚ) / 2) :=
  ⟨(success_rps_fallback_iff_duration "77.00" 5 3 (-2)).1,
   (success_rps_fallback_iff_duration "77.00" 5 3 (-2)).2.1 (by norm_num),
   (success_rps_fallback_iff_duration "77.00" 5 3 2).2.2 (by norm_num)⟩

/-! ### Latency parsing and rendering -/

/-- Longest leading decimal literal of the form digits* dot? digits+ with
its value and the remaining characters; none when no such prefix exists.
Models the first capture group of the latency regex, whose backtracking
admits exactly this decomposition. -/
def numericPrefix (cs : List Char) : Option (ℚ × List Char) :=
  let d1 := cs.takeWhile Char.isDigit
  match cs.dropWhile Char.isDigit with
  | '.' :: rest2 =>
    let d2 := rest2.takeWhile Char.isDigit
    if d2 = [] then
      if d1 = [] then none else some (decimalValue d1 [], '.' :: rest2)
    else some (decimalValue d1 d2, rest2.dropWhile Char.isDigit)
  | rest1 => if d1 = [] then none else some (decimalValue d1 [], rest1)

/-- Embedding of BenchmarkRunner._latency_to_seconds (run_benchmarks.py
lines 1296-1308), faithful to the unit alternation (us|s|s|ms|s) and the
unit membership test on the set holding us, s and s that the source file
literally contains: a trailing bare s therefore divides by one million
exactly like us, and the final plain-amount return is unreachable. -/
def latencyToSeconds (value : String) : Option ℚ :=
  match numericPrefix (pyLower (pyStrip value)).toList with
  | none => none
  | some (amount, rest) =>
    let unit := String.mk (rest.dropWhile Char.isWhitespace)
    if unit = "us" ∨ unit = "s" ∨ unit = "ms" then
      if unit = "us" ∨ unit = "s" then some (amount / 1000000)
      else if unit = "ms" then some (amount / 1000)
      else some amount
    else none

/-- Embedding of BenchmarkRunner._format_latency_seconds (run_benchmarks.py
lines 1310-1316). -/
def formatLatencySeconds (seconds : ℚ) : String :=
  if 1 ≤ seconds then formatQ2 seconds ++ "s"
  else if 1 / 1000 ≤ seconds then formatQ2 (seconds * 1000) ++ "ms"
  else formatQ2 (seconds * 1000000) ++ "us"

/-- Embedding of BenchmarkRunner._compute_timeout_adjusted_latency
(run_benchmarks.py lines 1318-1335). -/
def computeTimeoutAdjustedLatency (rawLatency : String)
    (successfulRequests timeoutErrors : ℤ) (timeoutSeconds : ℚ) : String :=
  if rawLatency = "-" ∨ timeoutErrors ≤ 0 then rawLatency
  else
    match latencyToSeconds rawLatency with
    | none => rawLatency
    | some rawSeconds =>
      let completed : ℤ := max 0 successfulRequests
      let total : ℤ := completed + timeoutErrors
      if total ≤ 0 then rawLatency
      else
        formatLatencySeconds
          ((rawSeconds * (completed : ℚ) + timeoutSeconds * (timeoutErrors : ℚ))
            / (total : ℚ))

theorem latencyToSeconds_dash : latencyToSeconds "-" = none := rfl

theorem latencyToSeconds_100ms : latencyToSeconds "100ms" = some (1 / 10) := by
  have h0 : latencyToSeconds "100ms"
      = some (decimalValue ['1', '0', '0'] [] / 1000) := rfl
  have h1 : decimalValue ['1', '0', '0'] [] = 100 := by
    have h2 : natOfDigits ['1', '0', '0'] = 100 := by decide
    simp [decimalValue, h2]
  rw [h0, h1]
  norm_num

/-- C4: for every parseable raw latency and positive timeout count the
adjusted latency is the count-weighted blend of the parsed raw latency and
the configured timeout, with the successful count clamped at zero; a zero
timeout count or the sentinel dash passes through unchanged, and the
documented 100ms example renders as 195.00ms. -/
theorem timeout_adjusted_latency_formula (raw : String) (rs : ℚ) (s te : ℤ)
    (ts : ℚ) (hparse : latencyToSeconds raw = some rs) (hte : 0 < te) :
    computeTimeoutAdjustedLatency raw s te ts
        = formatLatencySeconds
            ((rs * ((max 0 s : ℤ) : ℚ) + ts * (te : ℚ))
              / (((max 0 s + te : ℤ)) : ℚ))
      ∧ computeTimeoutAdjustedLatency raw s 0 ts = raw
      ∧ computeTimeoutAdjustedLatency "-" s te ts = "-"
      ∧ computeTimeoutAdjustedLatency "100ms" 950 50 2 = "195.00ms" := by
  have hraw : raw ≠ "-" := by
    intro h
    rw [h, latencyToSeconds_dash] at hparse
    exact Option.noConfusion hparse
  have htotal : ¬ (max 0 s + te ≤ 0) :=
    not_le.mpr (add_pos_of_nonneg_of_pos (le_max_left 0 s) hte)
  refine ⟨?_, ?_, ?_, ?_⟩
  · simp only [computeTimeoutAdjustedLatency, hparse,
      if_neg (by push_neg; exact ⟨hraw, hte⟩ : ¬ (raw = "-" ∨ te ≤ 0)),
      if_neg htotal]
  · simp only [computeTimeoutAdjustedLatency, if_pos (Or.inr (le_refl (0 : ℤ)))]
  · simp [computeTimeoutAdjustedLatency]
  · have hne : ¬ (("100ms" : String) = "-" ∨ (50 : ℤ) ≤ 0) := by
      push_neg
      exact ⟨by decide, by norm_num⟩
    simp only [computeTimeoutAdjustedLatency, latencyToSeconds_100ms,
      if_neg hne]
    rw [if_neg (show ¬ (max 0 (950 : ℤ) + 50 : ℤ) ≤ 0 from by decide)]
    have hval : ((1 : ℚ) / 10 * ((max 0 (950 : ℤ) : ℤ) : ℚ)
        + 2 * ((50 : ℤ) : ℚ)) / (((max 0 (950 : ℤ) + 50 : ℤ)) : ℚ)
          = 39 / 200 := by
      rw [show (max 0 (950 : ℤ) : ℤ) = 950 from by decide]
      push_cast
      norm_num
    rw [hval]
    have hfmt : formatLatencySeconds (39 / 200) = formatQ2 (39 / 200 * 1000)
        ++ "ms" := by
      unfold formatLatencySeconds
      rw [if_neg (by norm_num : ¬ (1 : ℚ) ≤ 39 / 200),
        if_pos (by norm_num : (1 : ℚ) / 1000 ≤ 39 / 200)]
    rw [hfmt, formatQ2_eq_hundredths (39 / 200 * 1000) 19500 (by norm_num)
      (by norm_num)]
    decide

theorem timeout_adjusted_latency_formula_witness :
    computeTimeoutAdjustedLatency "100ms" 950 50 2
        = formatLatencySeconds
            (((1 : ℚ) / 10 * ((max 0 950 : ℤ) : ℚ) + 2 * ((50 : ℤ) : ℚ))
              / (((max 0 950 + 50 : ℤ)) : ℚ))
      ∧ computeTimeoutAdjustedLatency "100ms" 950 0 2 = "100ms"
      ∧ computeTimeoutAdjustedLatency "-" 950 50 2 = "-"
      ∧ computeTimeoutAdjustedLatency "100ms" 950 50 2 = "195.00ms" :=
  timeout_adjusted_latency_formula "100ms" (1 / 10) 950 50 2
    latencyToSeconds_100ms (by norm_num)

/-- C5 divergence record: the parser maps the string 1s to one microsecond
(the mangled unit branch collapses the seconds suffix into the microsecond
case), not to one second as the unit convention demands, while us and ms
inputs and the recombining renderer follow the convention. -/
theorem latency_unit_suffix_divergence :
    latencyToSeconds "1s" = some (1 / 1000000)
      ∧ latencyToSeconds "1s" ≠ some 1
      ∧ latencyToSeconds "100ms" = some (1 / 10)
      ∧ latencyToSeconds "250us" = some (1 / 4000)
      ∧ formatLatencySeconds 1 = "1.00s"
      ∧ formatLatencySeconds (1 / 2) = "500.00ms"
      ∧ formatLatencySeconds (1 / 2000) = "500.00us" := by
  have h1s : latencyToSeconds "1s" = some (1 / 1000000) := by
    have h0 : latencyToSeconds "1s" = some (decimalValue ['1'] [] / 1000000) :=
      rfl
    have h1 : decimalValue ['1'] [] = 1 := by
      have h2 : natOfDigits ['1'] = 1 := by decide
      simp [decimalValue, h2]
    rw [h0, h1]
  have h250 : latencyToSeconds "250us" = some (1 / 4000) := by
    have h0 : latencyToSeconds "250us"
        = some (decimalValue ['2', '5', '0'] [] / 1000000) := rfl
    have h1 : decimalValue ['2', '5', '0'] [] = 250 := by
      have h2 : natOfDigits ['2', '5', '0'] = 250 := by decide
      simp [decimalValue, h2]
    rw [h0, h1]
    norm_num
  refine ⟨h1s, ?_, latencyToSeconds_100ms, h250, ?_, ?_, ?_⟩
  · rw [h1s]
    intro h
    have := Option.some.inj h
    norm_num at this
  · unfold formatLatencySeconds
    rw [if_pos (le_refl (1 : ℚ)),
      formatQ2_eq_hundredths 1 100 (by norm_num) (by norm_num)]
    decide
  · unfold formatLatencySeconds
    rw [if_neg (by norm_num : ¬ (1 : ℚ) ≤ 1 / 2),
      if_pos (by norm_num : (1 : ℚ) / 1000 ≤ 1 / 2),
      formatQ2_eq_hundredths ((1 : ℚ) / 2 * 1000) 50000 (by norm_num)
        (by norm_num)]
    decide
  · unfold formatLatencySeconds
    rw [if_neg (by norm_num : ¬ (1 : ℚ) ≤ 1 / 2000),
      if_neg (by norm_num : ¬ (1 : ℚ) / 1000 ≤ 1 / 2000),
      formatQ2_eq_hundredths ((1 : ℚ) / 2000 * 1000000) 50000 (by norm_num)
        (by norm_num)]
    decide

/-! ### wrk error extraction -/

/-- Error counters collected by BenchmarkRunner._extract_wrk_errors. -/
structure WrkErrors where
  connectErrors : ℤ
  readErrors : ℤ
  writeErrors : ℤ
  timeoutErrors : ℤ
deriving DecidableEq

/-- One step of the line loop of BenchmarkRunner._extract_wrk_errors
(run_benchmarks.py lines 1220-1253).  A marker line whose count fails to
parse keeps the previous nonzero value or falls back to one (the Python
idiom value or one). -/
def extractStep (st : WrkErrors) (line : String) : WrkErrors :=
  let l := pyStrip line
  if pyStartsWith l "Errors (connect):" then
    match (colonRest l).bind pyInt? with
    | some n => { st with connectErrors := n }
    | none =>
      { st with connectErrors := if st.connectErrors = 0 then 1
          else st.connectErrors }
  else if pyStartsWith l "Errors (read):" then
    match (colonRest l).bind pyInt? with
    | some n => { st with readErrors := n }
    | none =>
      { st with readErrors := if st.readErrors = 0 then 1 else st.readErrors }
  else if pyStartsWith l "Errors (write):" then
    match (colonRest l).bind pyInt? with
    | some n => { st with writeErrors := n }
    | none =>
      { st with writeErrors := if st.writeErrors = 0 then 1
          else st.writeErrors }
  else if pyStartsWith l "Errors (timeout):" then
    match (colonRest l).bind pyInt? with
    | some n => { st with timeoutErrors := n }
    | none =>
      { st with timeoutErrors := if st.timeoutErrors = 0 then 1
          else st.timeoutErrors }
  else st

/-- Embedding of BenchmarkRunner._extract_wrk_errors on the line list. -/
def extractWrkErrorsLines (ls : List String) : WrkErrors :=
  ls.foldl extractStep ⟨0, 0, 0, 0⟩

/-- Embedding of BenchmarkRunner._extract_wrk_errors (lines 1220-1253). -/
def extractWrkErrors (output : String) : WrkErrors :=
  extractWrkErrorsLines (pyLines output)

/-- Non-2xx extraction step of BenchmarkRunner._parse_wrk_output
(run_benchmarks.py lines 1196-1203): the branch overwrites the running
value, counting a garbled or colon-free marker line as one. -/
def non2xxStep (acc : ℤ) (line : String) : ℤ :=
  let l := pyStrip line
  if pyStartsWith l "Non-2xx" then
    match (colonRest l).bind pyInt? with
    | some n => n
    | none => 1
  else acc

/-- Non-2xx counter of BenchmarkRunner._parse_wrk_output on the line list. -/
def parseWrkNon2xxLines (ls : List String) : ℤ :=
  ls.foldl non2xxStep 0

/-- Non-2xx counter of BenchmarkRunner._parse_wrk_output. -/
def parseWrkNon2xx (output : String) : ℤ :=
  parseWrkNon2xxLines (pyLines output)

theorem pyStartsWith_conflict (s p q : String)
    (hp : pyStartsWith s p = true) (hq : pyStartsWith s q = true)
    (hlen : p.toList.length ≤ q.toList.length)
    (hne : ¬ p.toList.isPrefixOf q.toList = true) : False := by
  unfold pyStartsWith at hp hq
  rw [List.isPrefixOf_iff_prefix] at hp hq
  exact hne (List.isPrefixOf_iff_prefix.mpr
    (List.prefix_of_prefix_length_le hp hq hlen))

theorem extractStep_timeout_of_not_marker (st : WrkErrors) (l : String)
    (h : pyStartsWith (pyStrip l) "Errors (timeout):" = false) :
    (extractStep st l).timeoutErrors = st.timeoutErrors := by
  unfold extractStep
  simp only [h]
  split
  · split <;> rfl
  · split
    · split <;> rfl
    · split
      · split <;> rfl
      · simp

theorem foldl_extract_timeout_const (ls : List String) (st : WrkErrors)
    (h : ∀ l ∈ ls, pyStartsWith (pyStrip l) "Errors (timeout):" = false) :
    (ls.foldl extractStep st).timeoutErrors = st.timeoutErrors := by
  induction ls generalizing st with
  | nil => rfl
  | cons a tl ih =>
    rw [List.foldl_cons, ih _ (fun l hl => h l (List.mem_cons_of_mem a hl)),
      extractStep_timeout_of_not_marker st a (h a (List.mem_cons_self a tl))]

theorem foldl_non2xx_const (ls : List String) (acc : ℤ)
    (h : ∀ l ∈ ls, pyStartsWith (pyStrip l) "Non-2xx" = false) :
    ls.foldl non2xxStep acc = acc := by
  induction ls generalizing acc with
  | nil => rfl
  | cons a tl ih =>
    rw [List.foldl_cons,
      show non2xxStep acc a = acc by
        unfold non2xxStep
        simp only [h a (List.mem_cons_self a tl)]
        simp]
    exact ih acc (fun l hl => h l (List.mem_cons_of_mem a hl))

/-- C10: an error-marker line whose count field does not parse as an
integer contributes a count of one instead of being dropped, both for the
lua error markers and the Non-2xx marker, while absent markers yield zero;
the concrete garbled lines of the claim evaluate accordingly. -/
theorem garbled_error_count_one
    (pre post : List String) (gl : String)
    (hg1 : pyStartsWith (pyStrip gl) "Errors (timeout):" = true)
    (hg2 : ((colonRest (pyStrip gl)).bind pyInt?) = none)
    (hpre : ∀ l ∈ pre, pyStartsWith (pyStrip l) "Errors (timeout):" = false)
    (hpost : ∀ l ∈ post, pyStartsWith (pyStrip l) "Errors (timeout):" = false)
    (post2 : List String) (gl2 : String)
    (hq1 : pyStartsWith (pyStrip gl2) "Non-2xx" = true)
    (hq2 : ((colonRest (pyStrip gl2)).bind pyInt?) = none)
    (hpost2 : ∀ l ∈ post2, pyStartsWith (pyStrip l) "Non-2xx" = false)
    (ls0 ls1 : List String)
    (habs : ∀ l ∈ ls0, pyStartsWith (pyStrip l) "Errors (timeout):" = false)
    (habs2 : ∀ l ∈ ls1, pyStartsWith (pyStrip l) "Non-2xx" = false) :
    (extractWrkErrorsLines (pre ++ gl :: post)).timeoutErrors = 1
      ∧ parseWrkNon2xxLines (gl2 :: post2) = 1
      ∧ (extractWrkErrorsLines ls0).timeoutErrors = 0
      ∧ parseWrkNon2xxLines ls1 = 0
      ∧ (extractWrkErrors
          "Requests/sec: 12345.67\nErrors (timeout): abc").timeoutErrors = 1
      ∧ parseWrkNon2xx "Non-2xx: xyz" = 1 := by
  refine ⟨?_, ?_, ?_, ?_, by decide, by decide⟩
  · unfold extractWrkErrorsLines
    rw [List.foldl_append, List.foldl_cons,
      foldl_extract_timeout_const post _ hpost]
    have hz : (pre.foldl extractStep ⟨0, 0, 0, 0⟩).timeoutErrors = 0 :=
      foldl_extract_timeout_const pre _ hpre
    have hmid : (extractStep (pre.foldl extractStep ⟨0, 0, 0, 0⟩)
        gl).timeoutErrors = 1 := by
      simp only [extractStep]
      cases hcc : pyStartsWith (pyStrip gl) "Errors (connect):" with
      | true =>
        exact (pyStartsWith_conflict _ _ _ hcc hg1 (by decide) (by decide)).elim
      | false =>
        cases hcr : pyStartsWith (pyStrip gl) "Errors (read):" with
        | true =>
          exact (pyStartsWith_conflict _ _ _ hcr hg1 (by decide)
            (by decide)).elim
        | false =>
          cases hcw : pyStartsWith (pyStrip gl) "Errors (write):" with
          | true =>
            exact (pyStartsWith_conflict _ _ _ hcw hg1 (by decide)
              (by decide)).elim
          | false =>
            simp only [hg1, hg2, Bool.false_eq_true, if_false, if_true]
            simp [hz]
    exact hmid
  · unfold parseWrkNon2xxLines
    rw [List.foldl_cons, show non2xxStep 0 gl2 = 1 by
      unfold non2xxStep
      simp only [hq1, hq2]
      simp]
    exact foldl_non2xx_const post2 1 hpost2
  · exact foldl_extract_timeout_const ls0 _ habs
  · exact foldl_non2xx_const ls1 0 habs2

theorem garbled_error_count_one_witness :
    (extractWrkErrorsLines
        (["Running 10s test"] ++ "Errors (timeout): abc"
          :: ["Transfer/sec: 1.2MB"])).timeoutErrors = 1
      ∧ parseWrkNon2xxLines ("Non-2xx: xyz" :: ["Requests/sec: 5.00"]) = 1
      ∧ (extractWrkErrorsLines ["Latency 1.2ms"]).timeoutErrors = 0
      ∧ parseWrkNon2xxLines ["Latency 1.2ms"] = 0
      ∧ (extractWrkErrors
          "Requests/sec: 12345.67\nErrors (timeout): abc").timeoutErrors = 1
      ∧ parseWrkNon2xx "Non-2xx: xyz" = 1 :=
  garbled_error_count_one ["Running 10s test"] ["Transfer/sec: 1.2MB"]
    "Errors (timeout): abc" (by decide) (by decide) (by decide) (by decide)
    ["Requests/sec: 5.00"] "Non-2xx: xyz" (by decide) (by decide) (by decide)
    ["Latency 1.2ms"] ["Latency 1.2ms"] (by decide) (by decide)

/-! ### Winner-loop lemmas -/

theorem bestLoop_cons (get : String × String → Option String) (sc : String)
    (server : String) (rest : List String) (bn : String) (bv : ℚ) :
    bestLoop get sc (server :: rest) bn bv
      = match qualValue get sc server with
        | none => bestLoop get sc rest bn bv
        | some x =>
          if bv < x then bestLoop get sc rest server x
          else bestLoop get sc rest bn bv := by
  cases hg : get (server, sc) with
  | none => simp [bestLoop, qualValue, hg]
  | some v =>
    by_cases h : v = "" ∨ v = "-"
    · simp [bestLoop, qualValue, hg, h]
    · cases hp : parseFloat? v with
      | none => simp [bestLoop, qualValue, hg, h, hp]
      | some x => simp [bestLoop, qualValue, hg, h, hp]

theorem bestLoop_all_le (get : String × String → Option String) (sc : String)
    (l : List String) : ∀ (bn : String) (bv : ℚ),
    (∀ s ∈ l, ∀ y, qualValue get sc s = some y → y ≤ bv) →
    bestLoop get sc l bn bv = bn := by
  induction l with
  | nil => intro bn bv _; rfl
  | cons a tl ih =>
    intro bn bv h
    rw [bestLoop_cons]
    cases hq : qualValue get sc a with
    | none => exact ih bn bv (fun s hs y hy => h s (List.mem_cons_of_mem a hs) y hy)
    | some x =>
      dsimp only
      rw [if_neg (not_lt.mpr (h a (List.mem_cons_self a tl) x hq))]
      exact ih bn bv (fun s hs y hy => h s (List.mem_cons_of_mem a hs) y hy)

theorem bestLoop_charn (get : String × String → Option String) (sc : String)
    (l : List String) : ∀ (bn : String) (bv : ℚ),
    (bestLoop get sc l bn bv = bn
        ∧ ∀ s ∈ l, ∀ y, qualValue get sc s = some y → y ≤ bv)
      ∨ (∃ x, qualValue get sc (bestLoop get sc l bn bv) = some x ∧ bv < x
          ∧ bestLoop get sc l bn bv ∈ l
          ∧ ∀ s ∈ l, ∀ y, qualValue get sc s = some y → y ≤ x) := by
  induction l with
  | nil =>
    intro bn bv
    exact Or.inl ⟨rfl, fun s hs => absurd hs (List.not_mem_nil s)⟩
  | cons a tl ih =>
    intro bn bv
    rw [bestLoop_cons]
    cases hq : qualValue get sc a with
    | none =>
      rcases ih bn bv with ⟨h1, h2⟩ | ⟨x, hx1, hx2, hx3, hx4⟩
      · refine Or.inl ⟨h1, fun s hs y hy => ?_⟩
        rcases List.mem_cons.mp hs with rfl | hs2
        · rw [hq] at hy; exact Option.noConfusion hy
        · exact h2 s hs2 y hy
      · refine Or.inr ⟨x, hx1, hx2, List.mem_cons_of_mem a hx3,
          fun s hs y hy => ?_⟩
        rcases List.mem_cons.mp hs with rfl | hs2
        · rw [hq] at hy; exact Option.noConfusion hy
        · exact hx4 s hs2 y hy
    | some x =>
      dsimp only
      by_cases hlt : bv < x
      · rw [if_pos hlt]
        rcases ih a x with ⟨h1, h2⟩ | ⟨x2, hx1, hx2, hx3, hx4⟩
        · refine Or.inr ⟨x, by rw [h1]; exact hq, hlt,
            by rw [h1]; exact List.mem_cons_self a tl,
            fun s hs y hy => ?_⟩
          rcases List.mem_cons.mp hs with rfl | hs2
          · rw [hq] at hy; exact le_of_eq (Option.some.inj hy).symm
          · exact h2 s hs2 y hy
        · refine Or.inr ⟨x2, hx1, lt_trans hlt hx2,
            List.mem_cons_of_mem a hx3, fun s hs y hy => ?_⟩
          rcases List.mem_cons.mp hs with rfl | hs2
          · rw [hq] at hy
            exact le_of_lt (lt_of_eq_of_lt (Option.some.inj hy).symm hx2)
          · exact hx4 s hs2 y hy
      · rw [if_neg hlt]
        rcases ih bn bv with ⟨h1, h2⟩ | ⟨x2, hx1, hx2, hx3, hx4⟩
        · refine Or.inl ⟨h1, fun s hs y hy => ?_⟩
          rcases List.mem_cons.mp hs with rfl | hs2
          · rw [hq] at hy
            exact le_of_eq (Option.some.inj hy).symm |>.trans (not_lt.mp hlt)
          · exact h2 s hs2 y hy
        · refine Or.inr ⟨x2, hx1, hx2, List.mem_cons_of_mem a hx3,
            fun s hs y hy => ?_⟩
          rcases List.mem_cons.mp hs with rfl | hs2
          · rw [hq] at hy
            exact le_of_eq (Option.some.inj hy).symm |>.trans
              (le_of_lt (lt_of_le_of_lt (not_lt.mp hlt) hx2))
          · exact hx4 s hs2 y hy

theorem bestLoop_first (get : String × String → Option String) (sc : String)
    (x : ℚ) (l1 : List String) : ∀ (s : String) (l2 : List String)
    (bn : String) (bv : ℚ),
    qualValue get sc s = some x → bv < x →
    (∀ t ∈ l1, ∀ y, qualValue get sc t = some y → y < x) →
    (∀ t ∈ l2, ∀ y, qualValue get sc t = some y → y ≤ x) →
    bestLoop get sc (l1 ++ s :: l2) bn bv = s := by
  induction l1 with
  | nil =>
    intro s l2 bn bv hq hbv _ h2
    rw [List.nil_append, bestLoop_cons, hq]
    dsimp only
    rw [if_pos hbv]
    exact bestLoop_all_le get sc l2 s x h2
  | cons a tl ih =>
    intro s l2 bn bv hq hbv h1 h2
    rw [List.cons_append, bestLoop_cons]
    cases hqa : qualValue get sc a with
    | none =>
      exact ih s l2 bn bv hq hbv
        (fun t ht y hy => h1 t (List.mem_cons_of_mem a ht) y hy) h2
    | some y =>
      dsimp only
      have hy : y < x := h1 a (List.mem_cons_self a tl) y hqa
      by_cases hby : bv < y
      · rw [if_pos hby]
        exact ih s l2 a y hq hy
          (fun t ht z hz => h1 t (List.mem_cons_of_mem a ht) z hz) h2
      · rw [if_neg hby]
        exact ih s l2 bn bv hq hbv
          (fun t ht z hz => h1 t (List.mem_cons_of_mem a ht) z hz) h2

/-- C8 counterexample: a single tested server whose stored adjusted
throughput is the numeric string 0.00 is not computed as the winner; the
loop returns the empty no-winner name even though the value parses as a
number, because only strictly positive values ever displace the initial
best value of zero. -/
theorem best_server_zero_value_cex :
    bestServerForScenario ["srvA"] zeroRpsGet "headers" = ""
      ∧ bestServerForScenario ["srvA"] zeroRpsGet "headers" ≠ "srvA"
      ∧ parseFloat? "0.00" = some 0 := by
  have h1 : decimalValue ['0'] ['0', '0'] = 0 := by
    have h2 : natOfDigits (['0'] ++ ['0', '0']) = 0 := by decide
    unfold decimalValue
    rw [h2]
    norm_num
  have hq : qualValue zeroRpsGet "headers" "srvA"
      = some (decimalValue ['0'] ['0', '0']) := rfl
  have hb : bestServerForScenario ["srvA"] zeroRpsGet "headers" = "" := by
    unfold bestServerForScenario
    rw [bestLoop_cons, hq, h1]
    dsimp only
    rw [if_neg (lt_irrefl (0 : ℚ))]
    rfl
  refine ⟨hb, by rw [hb]; decide, ?_⟩
  have h0 : parseFloat? "0.00" = some (decimalValue ['0'] ['0', '0']) := rfl
  rw [h0, h1]

/-- C8 amended: the winner is the first server in tested order whose stored
value parses as a strictly positive number that no other tested server
exceeds; values that are missing, empty, the sentinel dash, unparseable or
non-positive never win, and when no strictly positive value exists the
computation reports no winner (the empty name). -/
theorem best_server_amended (servers : List String)
    (get : String × String → Option String) (sc : String)
    (l1 l2 : List String) (s : String) (x : ℚ)
    (hsplit : servers = l1 ++ s :: l2)
    (hq : qualValue get sc s = some x) (hx : 0 < x)
    (hbefore : ∀ t ∈ l1, ∀ y, qualValue get sc t = some y → y < x)
    (hafter : ∀ t ∈ l2, ∀ y, qualValue get sc t = some y → y ≤ x) :
    ((∀ t ∈ servers, ∀ y, qualValue get sc t = some y → y ≤ 0) →
        bestServerForScenario servers get sc = "")
      ∧ (bestServerForScenario servers get sc ≠ "" →
          ∃ z, 0 < z
            ∧ qualValue get sc (bestServerForScenario servers get sc) = some z
            ∧ bestServerForScenario servers get sc ∈ servers
            ∧ ∀ t ∈ servers, ∀ y, qualValue get sc t = some y → y ≤ z)
      ∧ bestServerForScenario servers get sc = s := by
  refine ⟨?_, ?_, ?_⟩
  · intro hall
    exact bestLoop_all_le get sc servers "" 0 hall
  · intro hne
    rcases bestLoop_charn get sc servers "" 0 with ⟨h1, _⟩ |
      ⟨z, hz1, hz2, hz3, hz4⟩
    · exact absurd h1 hne
    · exact ⟨z, hz2, hz1, hz3, hz4⟩
  · rw [hsplit]
    exact bestLoop_first get sc x l1 s l2 "" 0 hq hx hbefore hafter

theorem posRpsGet_qual_srvA : qualValue posRpsGet "headers" "srvA" = some 5 := by
  have h0 : qualValue posRpsGet "headers" "srvA"
      = some (decimalValue ['5'] ['0', '0']) := rfl
  have h1 : decimalValue ['5'] ['0', '0'] = 5 := by
    have h2 : natOfDigits (['5'] ++ ['0', '0']) = 500 := by decide
    unfold decimalValue
    rw [h2]
    norm_num
  rw [h0, h1]

theorem posRpsGet_qual_srvB : qualValue posRpsGet "headers" "srvB" = some 5 := by
  have h0 : qualValue posRpsGet "headers" "srvB"
      = some (decimalValue ['5'] ['0', '0']) := rfl
  have h1 : decimalValue ['5'] ['0', '0'] = 5 := by
    have h2 : natOfDigits (['5'] ++ ['0', '0']) = 500 := by decide
    unfold decimalValue
    rw [h2]
    norm_num
  rw [h0, h1]

theorem best_server_amended_witness :
    ((∀ t ∈ ["srvA", "srvB"], ∀ y,
        qualValue posRpsGet "headers" t = some y → y ≤ 0) →
      bestServerForScenario ["srvA", "srvB"] posRpsGet "headers" = "")
      ∧ (bestServerForScenario ["srvA", "srvB"] posRpsGet "headers" ≠ "" →
          ∃ z, 0 < z
            ∧ qualValue posRpsGet "headers"
                (bestServerForScenario ["srvA", "srvB"] posRpsGet "headers")
                  = some z
            ∧ bestServerForScenario ["srvA", "srvB"] posRpsGet "headers"
                ∈ ["srvA", "srvB"]
            ∧ ∀ t ∈ ["srvA", "srvB"], ∀ y,
                qualValue posRpsGet "headers" t = some y → y ≤ z)
      ∧ bestServerForScenario ["srvA", "srvB"] posRpsGet "headers" = "srvA" :=
  best_server_amended ["srvA", "srvB"] posRpsGet "headers" [] ["srvB"]
    "srvA" 5 rfl posRpsGet_qual_srvA (by norm_num)
    (fun t ht => absurd ht (List.not_mem_nil t))
    (fun t ht y hy => by
      rcases List.mem_singleton.mp ht with rfl
      rw [posRpsGet_qual_srvB] at hy
      exact le_of_eq (Option.some.inj hy).symm)

theorem foldl_keep {α β : Type} (l : List β) (a : α) :
    l.foldl (fun s _ => s) a = a := by
  induction l generalizing a with
  | nil => rfl
  | cons b tl ih => rw [List.foldl_cons]; exact ih a

/-- C1 counterexample: a server that never becomes ready leaves the result
store without any record for its scenarios; in particular no sentinel dash
record is stored for either a normal or a restart-requiring scenario, so
the store does not contain the sentinel triple the claim requires. -/
theorem server_never_ready_no_record_cex :
    (runServerSuite ["headers", "files"] (fun _ => true)
        (fun sc => sc == "files") false demoRunSingle "python"
        emptyResults).rps ("python", "headers") = none
      ∧ (runServerSuite ["headers", "files"] (fun _ => true)
          (fun sc => sc == "files") false demoRunSingle "python"
          emptyResults).rps ("python", "files") = none
      ∧ ¬ ((runServerSuite ["headers", "files"] (fun _ => true)
          (fun sc => sc == "files") false demoRunSingle "python"
          emptyResults).rps ("python", "headers") = some "-") := by
  have h1 : (runServerSuite ["headers", "files"] (fun _ => true)
      (fun sc => sc == "files") false demoRunSingle "python"
      emptyResults).rps ("python", "headers") = none := rfl
  exact ⟨h1, rfl, by rw [h1]; exact fun h => Option.noConfusion h⟩

/-- C1 amended: when a server never becomes ready the suite driver leaves
the result store untouched, so its pairs stay absent rather than holding
sentinel records (the reporting layer later renders the missing cells as
the dash), and a server without a stored throughput value can never be
computed as the winner of a scenario. -/
theorem server_never_ready_amended (scenariosToTest : List String)
    (isKnown requiresRestart : String → Bool)
    (runSingle : String → String → ResultsState → ResultsState)
    (server : String) (st : ResultsState) (servers : List String)
    (scenario : String) (hmiss : st.rps (server, scenario) = none)
    (hname : server ≠ "") :
    runServerSuite scenariosToTest isKnown requiresRestart false runSingle
        server st = st
      ∧ bestServerForScenario servers st.rps scenario ≠ server := by
  constructor
  · simp only [runServerSuite, Bool.false_eq_true, and_false, if_false,
      ite_self]
    exact foldl_keep _ st
  · intro heq
    unfold bestServerForScenario at heq
    rcases bestLoop_charn st.rps scenario servers "" 0 with ⟨h1, _⟩ |
      ⟨x, hx1, _⟩
    · exact hname (heq.symm.trans h1)
    · rw [heq] at hx1
      unfold qualValue at hx1
      rw [hmiss] at hx1
      exact Option.noConfusion hx1

theorem server_never_ready_amended_witness :
    runServerSuite ["headers"] (fun _ => true) (fun _ => false) false
        demoRunSingle "python" emptyResults = emptyResults
      ∧ bestServerForScenario ["python"] emptyResults.rps "headers"
          ≠ "python" :=
  server_never_ready_amended ["headers"] (fun _ => true) (fun _ => false)
    demoRunSingle "python" emptyResults ["python"] "headers" rfl (by decide)

/-! ### Retry-ladder lemmas -/

theorem h2LadderGo_trace_4_16 (c : ℕ) (exec : ℕ → AttemptResult)
    (succ : String → ℕ) (hc : ∀ n, (exec n).crashed = true) (k : ℕ)
    (out : String) :
    (h2LadderGo c exec succ [4, 16] k out).2.2.map Prod.fst
      = List.filter (fun rc => decide (rc < c))
          [max (c / 4) 4, max (c / 16) 4] := by
  by_cases h1 : c ≤ max (c / 4) 4
  · have h2 : c ≤ max (c / 16) 4 := by
      rcases le_max_iff.mp h1 with h | h
      · have hd : c / 4 ≤ c / 1 := Nat.div_le_div_left (by norm_num) one_pos
        omega
      · exact le_max_of_le_right h
    simp only [h2LadderGo, if_pos h1, List.filter_cons, List.filter_nil,
      decide_eq_false (not_lt.mpr h1), decide_eq_false (not_lt.mpr h2)]
    simp
  · by_cases h2 : c ≤ max (c / 16) 4
    · simp only [h2LadderGo, if_neg h1, if_pos h2, hc k, if_true,
        List.filter_cons, List.filter_nil,
        decide_eq_true (not_le.mp h1), decide_eq_false (not_lt.mpr h2)]
      simp
    · simp only [h2LadderGo, if_neg h1, if_neg h2, hc k, hc (k + 1), if_true,
        List.filter_cons, List.filter_nil,
        decide_eq_true (not_le.mp h1), decide_eq_true (not_le.mp h2)]
      simp

/-- C6: after a crash of the original attempt the ladder retries at
max(c/4, 4) and then max(c/16, 4), dropping exactly the retries whose
connection count would not be below the original, and stops at the first
retry that does not crash; for an original count of 64 under permanent
crashing it tries 16 then 4, and when the 16-connection retry succeeds the
ladder ends there with that output and no crash flag. -/
theorem h2load_retry_ladder (c : ℕ) (exec exec2 : ℕ → AttemptResult)
    (succ : String → ℕ) (hcrash : ∀ n, (exec n).crashed = true)
    (h2a : (exec2 0).crashed = true) (h2b : (exec2 1).crashed = false) :
    (h2Ladder c exec succ).trace.map Prod.fst
        = c :: List.filter (fun rc => decide (rc < c))
            [max (c / 4) 4, max (c / 16) 4]
      ∧ (h2Ladder 64 exec succ).trace.map Prod.fst = [64, 16, 4]
      ∧ (h2Ladder 64 exec2 succ).trace.map Prod.fst = [64, 16]
      ∧ (h2Ladder 64 exec2 succ).crashed = false
      ∧ (h2Ladder 64 exec2 succ).output = (exec2 1).output := by
  have hmain : ∀ c0 : ℕ, (h2Ladder c0 exec succ).trace.map Prod.fst
      = c0 :: List.filter (fun rc => decide (rc < c0))
          [max (c0 / 4) 4, max (c0 / 16) 4] := by
    intro c0
    have ht := h2LadderGo_trace_4_16 c0 exec succ hcrash 1 ((exec 0).output)
    simp [h2Ladder, hcrash 0, ht]
  have hc1 : ¬ (64 ≤ max (64 / 4) 4) := by decide
  refine ⟨hmain c, ?_, ?_, ?_, ?_⟩
  · rw [hmain 64]; decide
  · simp [h2Ladder, h2LadderGo, h2a, h2b, hc1]
  · simp [h2Ladder, h2LadderGo, h2a, h2b, hc1]
  · simp [h2Ladder, h2LadderGo, h2a, h2b, hc1]

theorem h2load_retry_ladder_witness :
    (h2Ladder 20 cexExec cexSucc).trace.map Prod.fst
        = 20 :: List.filter (fun rc => decide (rc < 20))
            [max (20 / 4) 4, max (20 / 16) 4]
      ∧ (h2Ladder 64 cexExec cexSucc).trace.map Prod.fst = [64, 16, 4]
      ∧ (h2Ladder 64 cexExec2 cexSucc).trace.map Prod.fst = [64, 16]
      ∧ (h2Ladder 64 cexExec2 cexSucc).crashed = false
      ∧ (h2Ladder 64 cexExec2 cexSucc).output = (cexExec2 1).output :=
  h2load_retry_ladder 20 cexExec cexExec2 cexSucc (fun _ => rfl) rfl rfl

theorem h2LadderGo_argmax (c : ℕ) (exec : ℕ → AttemptResult)
    (succ : String → ℕ) (ds : List ℕ) : ∀ (k : ℕ) (out : String),
    (h2LadderGo c exec succ ds k out).2.1 = true →
    ((∀ o ∈ out :: (h2LadderGo c exec succ ds k out).2.2.map
          (fun p => p.2.output),
        succ o ≤ succ (h2LadderGo c exec succ ds k out).1)
      ∧ ∃ m1 m2,
          out :: (h2LadderGo c exec succ ds k out).2.2.map
              (fun p => p.2.output)
            = m1 ++ (h2LadderGo c exec succ ds k out).1 :: m2
          ∧ ∀ o ∈ m1, succ o < succ (h2LadderGo c exec succ ds k out).1) := by
  induction ds with
  | nil =>
    intro k out _
    refine ⟨?_, [], [], rfl, fun o ho => absurd ho (List.not_mem_nil o)⟩
    intro o ho
    rcases List.mem_cons.mp ho with rfl | h
    · exact le_refl _
    · exact absurd h (by simp [h2LadderGo])
  | cons d rest ih =>
    intro k out hcr
    by_cases hb : c ≤ max (c / d) 4
    · simp only [h2LadderGo, if_pos hb]
      refine ⟨?_, [], [], rfl, fun o ho => absurd ho (List.not_mem_nil o)⟩
      intro o ho
      rcases List.mem_cons.mp ho with rfl | h
      · exact le_refl _
      · simp at h
    · cases hcrk : (exec k).crashed with
      | false =>
        exfalso
        simp only [h2LadderGo, if_neg hb, hcrk, Bool.false_eq_true,
          if_false] at hcr
      | true =>
        simp only [h2LadderGo, if_neg hb, hcrk, if_true] at hcr ⊢
        by_cases hlt : succ out < succ ((exec k).output)
        · rw [if_pos hlt] at hcr ⊢
          rcases ih (k + 1) ((exec k).output) hcr with
            ⟨hmax, m1, m2, hsplit, hm1⟩
          constructor
          · intro o ho
            rcases List.mem_cons.mp ho with rfl | ho2
            · exact le_of_lt (lt_of_lt_of_le hlt
                (hmax _ (List.mem_cons_self _ _)))
            · simp only [List.map_cons] at ho2
              rcases List.mem_cons.mp ho2 with rfl | ho3
              · exact hmax _ (List.mem_cons_self _ _)
              · exact hmax _ (List.mem_cons_of_mem _ ho3)
          · refine ⟨out :: m1, m2, ?_, ?_⟩
            · simp only [List.map_cons, List.cons_append]
              rw [← hsplit]
            · intro o ho
              rcases List.mem_cons.mp ho with rfl | ho2
              · exact lt_of_lt_of_le hlt (hmax _ (List.mem_cons_self _ _))
              · exact hm1 o ho2
        · rw [if_neg hlt] at hcr ⊢
          rcases ih (k + 1) out hcr with ⟨hmax, m1, m2, hsplit, hm1⟩
          have hko : succ ((exec k).output) ≤ succ out := not_lt.mp hlt
          constructor
          · intro o ho
            rcases List.mem_cons.mp ho with rfl | ho2
            · exact hmax _ (List.mem_cons_self _ _)
            · simp only [List.map_cons] at ho2
              rcases List.mem_cons.mp ho2 with rfl | ho3
              · exact hko.trans (hmax _ (List.mem_cons_self _ _))
              · exact hmax _ (List.mem_cons_of_mem _ ho3)
          · cases m1 with
            | nil =>
              rw [List.nil_append] at hsplit
              injection hsplit with h1 h2
              refine ⟨[], (exec k).output
                :: (h2LadderGo c exec succ rest (k + 1) out).2.2.map
                  (fun p => p.2.output), ?_,
                fun o ho => absurd ho (List.not_mem_nil o)⟩
              rw [List.nil_append, ← h1]
              simp
            | cons a m1tl =>
              rw [List.cons_append] at hsplit
              injection hsplit with h1 h2
              have hab : succ a
                  < succ ((h2LadderGo c exec succ rest (k + 1) out).1) :=
                hm1 a (List.mem_cons_self a m1tl)
              have hout : succ out
                  < succ ((h2LadderGo c exec succ rest (k + 1) out).1) := by
                nth_rewrite 1 [h1]
                exact hab
              refine ⟨out :: (exec k).output :: m1tl, m2, ?_, ?_⟩
              · simp only [List.map_cons, List.cons_append]
                rw [h2]
              · intro o ho
                rcases List.mem_cons.mp ho with rfl | ho2
                · exact hout
                · rcases List.mem_cons.mp ho2 with rfl | ho3
                  · exact lt_of_le_of_lt hko hout
                  · exact hm1 o (List.mem_cons_of_mem a ho3)

/-- C7: when the original h2load attempt and every executed retry crash,
the selected output is the earliest attempt with the maximum number of
succeeded requests (strictly earlier attempts have strictly fewer, later
ones no more), the pair is recorded as a hard failure with sentinel dash
metrics exactly when every attempt had zero succeeded requests, and
otherwise the metrics computed from the selected partial output are
stored. -/
theorem h2load_crash_selection (c : ℕ) (exec : ℕ → AttemptResult)
    (succ : String → ℕ) (server scenario : String)
    (computeStore : String → ResultsState → ResultsState) (st : ResultsState)
    (hcrashed : (h2Ladder c exec succ).crashed = true) :
    (∃ m1 m2,
        (h2Ladder c exec succ).trace.map (fun p => p.2.output)
            = m1 ++ (h2Ladder c exec succ).output :: m2
          ∧ (∀ o ∈ m1, succ o < succ ((h2Ladder c exec succ).output))
          ∧ ∀ o ∈ m2, succ o ≤ succ ((h2Ladder c exec succ).output))
      ∧ (h2HardFailure succ (h2Ladder c exec succ) = true
          ↔ ∀ o ∈ (h2Ladder c exec succ).trace.map (fun p => p.2.output),
              succ o = 0)
      ∧ (h2HardFailure succ (h2Ladder c exec succ) = true →
          (h2RecordResult server scenario succ computeStore
                (h2Ladder c exec succ) st).rps (server, scenario) = some "-"
            ∧ (h2RecordResult server scenario succ computeStore
                (h2Ladder c exec succ) st).latency (server, scenario)
                  = some "-"
            ∧ (h2RecordResult server scenario succ computeStore
                (h2Ladder c exec succ) st).transfer (server, scenario)
                  = some "-")
      ∧ (h2HardFailure succ (h2Ladder c exec succ) = false →
          h2RecordResult server scenario succ computeStore
              (h2Ladder c exec succ) st
            = computeStore ((h2Ladder c exec succ).output) st) := by
  have horig : (exec 0).crashed = true := by
    cases hx : (exec 0).crashed with
    | true => rfl
    | false => simp [h2Ladder, hx] at hcrashed
  have heq : h2Ladder c exec succ
      = ⟨(h2LadderGo c exec succ [4, 16] 1 ((exec 0).output)).1,
         (h2LadderGo c exec succ [4, 16] 1 ((exec 0).output)).2.1,
         (c, exec 0) :: (h2LadderGo c exec succ [4, 16] 1
           ((exec 0).output)).2.2⟩ := by
    simp [h2Ladder, horig]
  have hg : (h2LadderGo c exec succ [4, 16] 1 ((exec 0).output)).2.1
      = true := by rw [heq] at hcrashed; exact hcrashed
  rcases h2LadderGo_argmax c exec succ [4, 16] 1 ((exec 0).output) hg with
    ⟨hmax, m1, m2, hsplit, hm1⟩
  have houts : (h2Ladder c exec succ).trace.map (fun p => p.2.output)
      = (exec 0).output :: (h2LadderGo c exec succ [4, 16] 1
          ((exec 0).output)).2.2.map (fun p => p.2.output) := by
    rw [heq]
    simp
  have hbest : (h2Ladder c exec succ).output
      = (h2LadderGo c exec succ [4, 16] 1 ((exec 0).output)).1 := by
    rw [heq]
  refine ⟨⟨m1, m2, ?_, ?_, ?_⟩, ?_, ?_, ?_⟩
  · rw [houts, hbest]; exact hsplit
  · rw [hbest]; exact hm1
  · intro o ho
    rw [hbest]
    apply hmax
    rw [hsplit]
    exact List.mem_append_right m1 (List.mem_cons_of_mem _ ho)
  · constructor
    · intro hH o ho
      have h0 : succ ((h2Ladder c exec succ).output) = 0 := by
        unfold h2HardFailure at hH
        rw [hcrashed] at hH
        simpa using hH
      have hle := hmax o (by rw [houts] at ho; exact ho)
      rw [← hbest] at hle
      omega
    · intro hall
      have houtmem : (h2Ladder c exec succ).output
          ∈ (h2Ladder c exec succ).trace.map (fun p => p.2.output) := by
        rw [houts, hbest, hsplit]
        exact List.mem_append_right m1 (List.mem_cons_self _ _)
      have h0 := hall _ houtmem
      unfold h2HardFailure
      rw [hcrashed, h0]
      rfl
  · intro hH
    unfold h2HardFailure at hH
    refine ⟨?_, ?_, ?_⟩ <;>
      simp [h2RecordResult, hH, storeResult, updateMap]
  · intro hH
    unfold h2HardFailure at hH
    simp [h2RecordResult, hH]

theorem h2load_crash_selection_witness :
    (∃ m1 m2,
        (h2Ladder 64 cexExec cexSucc).trace.map (fun p => p.2.output)
            = m1 ++ (h2Ladder 64 cexExec cexSucc).output :: m2
          ∧ (∀ o ∈ m1, cexSucc o
              < cexSucc ((h2Ladder 64 cexExec cexSucc).output))
          ∧ ∀ o ∈ m2, cexSucc o
              ≤ cexSucc ((h2Ladder 64 cexExec cexSucc).output))
      ∧ (h2HardFailure cexSucc (h2Ladder 64 cexExec cexSucc) = true
          ↔ ∀ o ∈ (h2Ladder 64 cexExec cexSucc).trace.map
              (fun p => p.2.output), cexSucc o = 0)
      ∧ (h2HardFailure cexSucc (h2Ladder 64 cexExec cexSucc) = true →
          (h2RecordResult "srvA" "headers" cexSucc (fun _ s => s)
                (h2Ladder 64 cexExec cexSucc) emptyResults).rps
                  ("srvA", "headers") = some "-"
            ∧ (h2RecordResult "srvA" "headers" cexSucc (fun _ s => s)
                (h2Ladder 64 cexExec cexSucc) emptyResults).latency
                  ("srvA", "headers") = some "-"
            ∧ (h2RecordResult "srvA" "headers" cexSucc (fun _ s => s)
                (h2Ladder 64 cexExec cexSucc) emptyResults).transfer
                  ("srvA", "headers") = some "-")
      ∧ (h2HardFailure cexSucc (h2Ladder 64 cexExec cexSucc) = false →
          h2RecordResult "srvA" "headers" cexSucc (fun _ s => s)
              (h2Ladder 64 cexExec cexSucc) emptyResults
            = (fun _ s => s) ((h2Ladder 64 cexExec cexSucc).output)
                emptyResults) :=
  h2load_crash_selection 64 cexExec cexSucc "srvA" "headers" (fun _ s => s)
    emptyResults (by decide)

/-! ### Worklist closure lemmas -/

theorem childrenOf_pid_mem (table : List ProcEntry) (cur x : ℕ)
    (h : x ∈ childrenOf table cur) : x ∈ table.map ProcEntry.pid := by
  unfold childrenOf at h
  rcases List.mem_map.mp h with ⟨e, he, rfl⟩
  exact List.mem_map_of_mem _ (List.mem_of_mem_filter he)

theorem childrenOf_length_le (table : List ProcEntry) (cur : ℕ) :
    (childrenOf table cur).length ≤ table.length := by
  unfold childrenOf
  rw [List.length_map]
  exact List.length_filter_le _ _

theorem measure_skip_le (table : List ProcEntry) (cur : ℕ) (rest : List ℕ)
    (acc : List ℕ) :
    measureCard table rest acc ≤ measureCard table (cur :: rest) acc := by
  unfold measureCard
  apply Finset.card_le_card
  apply Finset.sdiff_subset_sdiff _ (Finset.Subset.refl _)
  exact Finset.union_subset_union (Finset.Subset.refl _)
    (by rw [List.toFinset_cons]; exact Finset.subset_insert _ _)

theorem measure_add_lt (table : List ProcEntry) (cur : ℕ) (rest : List ℕ)
    (acc : List ℕ) (h : cur ∉ acc) :
    measureCard table (childrenOf table cur ++ rest) (cur :: acc)
      < measureCard table (cur :: rest) acc := by
  unfold measureCard
  apply Finset.card_lt_card
  rw [Finset.ssubset_iff_of_subset]
  · refine ⟨cur, ?_, ?_⟩
    · simp only [Finset.mem_sdiff, Finset.mem_union, List.toFinset_cons,
        Finset.mem_insert, List.mem_toFinset]
      exact ⟨Or.inr (Or.inl trivial), h⟩
    · simp only [Finset.mem_sdiff, List.toFinset_cons, Finset.mem_insert,
        not_and, not_not]
      intro _
      exact Or.inl trivial
  · intro x hx
    simp only [Finset.mem_sdiff, Finset.mem_union, List.toFinset_append,
      List.toFinset_cons, Finset.mem_insert, List.mem_toFinset,
      Finset.mem_union] at hx ⊢
    rcases hx with ⟨h1, h2⟩
    have hx2 : x ≠ cur ∧ x ∉ acc := by
      constructor
      · intro hc; exact h2 (Or.inl hc)
      · intro hc; exact h2 (Or.inr hc)
    refine ⟨?_, hx2.2⟩
    rcases h1 with hp | hcr
    · exact Or.inl hp
    · rcases hcr with hchild | hrest
      · exact Or.inl (childrenOf_pid_mem table cur x hchild)
      · exact Or.inr (Or.inr hrest)

theorem collectInv_skip (table : List ProcEntry) (fuel : ℕ) (cur : ℕ)
    (rest : List ℕ) (acc : List ℕ)
    (h : collectInv table (fuel + 1) (cur :: rest) acc) :
    collectInv table fuel rest acc := by
  unfold collectInv at h ⊢
  have hm := measure_skip_le table cur rest acc
  have hmul : (measureCard table rest acc + 1) * (table.length + 1)
      ≤ (measureCard table (cur :: rest) acc + 1) * (table.length + 1) :=
    Nat.mul_le_mul_right _ (by omega)
  simp only [List.length_cons] at h
  omega

theorem collectInv_add (table : List ProcEntry) (fuel : ℕ) (cur : ℕ)
    (rest : List ℕ) (acc : List ℕ) (hnm : cur ∉ acc)
    (h : collectInv table (fuel + 1) (cur :: rest) acc) :
    collectInv table fuel (childrenOf table cur ++ rest) (cur :: acc) := by
  unfold collectInv at h ⊢
  have hm := measure_add_lt table cur rest acc hnm
  have hlen := childrenOf_length_le table cur
  have hmul : (measureCard table (childrenOf table cur ++ rest) (cur :: acc)
        + 1 + 1) * (table.length + 1)
      ≤ (measureCard table (cur :: rest) acc + 1) * (table.length + 1) :=
    Nat.mul_le_mul_right _ (by omega)
  have hexp : (measureCard table (childrenOf table cur ++ rest) (cur :: acc)
        + 1 + 1) * (table.length + 1)
      = (measureCard table (childrenOf table cur ++ rest) (cur :: acc) + 1)
          * (table.length + 1) + (table.length + 1) := by ring
  simp only [List.length_cons, List.length_append] at h ⊢
  omega

theorem collect_acc_subset (table : List ProcEntry) (fuel : ℕ) :
    ∀ (toVisit acc : List ℕ) (x : ℕ), x ∈ acc →
      x ∈ collectDescendants table fuel toVisit acc := by
  induction fuel with
  | zero => intro tv acc x hx; simpa [collectDescendants] using hx
  | succ fuel ih =>
    intro tv acc x hx
    cases tv with
    | nil => simpa [collectDescendants] using hx
    | cons cur rest =>
      simp only [collectDescendants]
      by_cases h : cur ∈ acc
      · rw [if_pos h]; exact ih rest acc x hx
      · rw [if_neg h]
        exact ih _ _ x (List.mem_cons_of_mem cur hx)

theorem collect_sound (table : List ProcEntry) (fuel : ℕ) :
    ∀ (toVisit acc : List ℕ) (x : ℕ),
      x ∈ collectDescendants table fuel toVisit acc →
      x ∈ acc ∨ ∃ t ∈ toVisit, Relation.ReflTransGen (childStep table) t x := by
  induction fuel with
  | zero =>
    intro tv acc x hx
    exact Or.inl (by simpa [collectDescendants] using hx)
  | succ fuel ih =>
    intro tv acc x hx
    cases tv with
    | nil => exact Or.inl (by simpa [collectDescendants] using hx)
    | cons cur rest =>
      simp only [collectDescendants] at hx
      by_cases h : cur ∈ acc
      · rw [if_pos h] at hx
        rcases ih rest acc x hx with hacc | ⟨t, ht, hr⟩
        · exact Or.inl hacc
        · exact Or.inr ⟨t, List.mem_cons_of_mem cur ht, hr⟩
      · rw [if_neg h] at hx
        rcases ih _ _ x hx with hacc | ⟨t, ht, hr⟩
        · rcases List.mem_cons.mp hacc with rfl | hacc2
          · exact Or.inr ⟨x, List.mem_cons_self x rest,
              Relation.ReflTransGen.refl⟩
          · exact Or.inl hacc2
        · rcases List.mem_append.mp ht with hchild | hrest
          · exact Or.inr ⟨cur, List.mem_cons_self cur rest,
              Relation.ReflTransGen.head hchild hr⟩
          · exact Or.inr ⟨t, List.mem_cons_of_mem cur hrest, hr⟩

theorem collect_complete (table : List ProcEntry) (fuel : ℕ) :
    ∀ (toVisit acc : List ℕ),
      collectInv table fuel toVisit acc →
      (∀ a ∈ acc, ∀ b ∈ childrenOf table a, b ∈ acc ∨ b ∈ toVisit) →
      (∀ t ∈ toVisit, t ∈ collectDescendants table fuel toVisit acc)
        ∧ (∀ a ∈ collectDescendants table fuel toVisit acc,
            ∀ b ∈ childrenOf table a,
              b ∈ collectDescendants table fuel toVisit acc) := by
  induction fuel with
  | zero =>
    intro tv acc hinv _
    exfalso
    unfold collectInv at hinv
    have h1 : 1 ≤ (measureCard table tv acc + 1) * (table.length + 1) :=
      Nat.one_le_iff_ne_zero.mpr
        (Nat.mul_ne_zero (Nat.succ_ne_zero _) (Nat.succ_ne_zero _))
    omega
  | succ fuel ih =>
    intro tv acc hinv hclosed
    cases tv with
    | nil =>
      refine ⟨fun t ht => absurd ht (List.not_mem_nil t), ?_⟩
      intro a ha b hb
      simp only [collectDescendants] at ha ⊢
      rcases hclosed a ha b hb with hacc | hnil
      · exact hacc
      · exact absurd hnil (List.not_mem_nil b)
    | cons cur rest =>
      by_cases h : cur ∈ acc
      · have hinv2 := collectInv_skip table fuel cur rest acc hinv
        have hclosed2 : ∀ a ∈ acc, ∀ b ∈ childrenOf table a,
            b ∈ acc ∨ b ∈ rest := by
          intro a ha b hb
          rcases hclosed a ha b hb with hacc | hcr
          · exact Or.inl hacc
          · rcases List.mem_cons.mp hcr with rfl | hrest
            · exact Or.inl h
            · exact Or.inr hrest
        rcases ih rest acc hinv2 hclosed2 with ⟨hlands, hcl⟩
        constructor
        · intro t ht
          simp only [collectDescendants, if_pos h]
          rcases List.mem_cons.mp ht with rfl | hrest
          · exact collect_acc_subset table fuel rest acc t h
          · exact hlands t hrest
        · intro a ha b hb
          simp only [collectDescendants, if_pos h] at ha ⊢
          exact hcl a ha b hb
      · have hinv2 := collectInv_add table fuel cur rest acc h hinv
        have hclosed2 : ∀ a ∈ cur :: acc, ∀ b ∈ childrenOf table a,
            b ∈ cur :: acc ∨ b ∈ childrenOf table cur ++ rest := by
          intro a ha b hb
          rcases List.mem_cons.mp ha with rfl | hacc
          · exact Or.inr (List.mem_append_left rest hb)
          · rcases hclosed a hacc b hb with hbacc | hbcr
            · exact Or.inl (List.mem_cons_of_mem cur hbacc)
            · rcases List.mem_cons.mp hbcr with rfl | hbrest
              · exact Or.inl (List.mem_cons_self b acc)
              · exact Or.inr (List.mem_append_right _ hbrest)
        rcases ih _ _ hinv2 hclosed2 with ⟨hlands, hcl⟩
        constructor
        · intro t ht
          simp only [collectDescendants, if_neg h]
          rcases List.mem_cons.mp ht with rfl | hrest
          · exact collect_acc_subset table fuel _ _ t
              (List.mem_cons_self t acc)
          · exact hlands t (List.mem_append_right _ hrest)
        · intro a ha b hb
          simp only [collectDescendants, if_neg h] at ha ⊢
          exact hcl a ha b hb

theorem collect_nodup (table : List ProcEntry) (fuel : ℕ) :
    ∀ (toVisit acc : List ℕ), acc.Nodup →
      (collectDescendants table fuel toVisit acc).Nodup := by
  induction fuel with
  | zero => intro tv acc h; simpa [collectDescendants] using h
  | succ fuel ih =>
    intro tv acc h
    cases tv with
    | nil => simpa [collectDescendants] using h
    | cons cur rest =>
      simp only [collectDescendants]
      by_cases hc : cur ∈ acc
      · rw [if_pos hc]; exact ih rest acc h
      · rw [if_neg hc]
        exact ih _ _ (List.nodup_cons.mpr ⟨hc, h⟩)

theorem descendants_mem_iff (table : List ProcEntry) (pid : ℕ) (x : ℕ) :
    x ∈ descendants table pid
      ↔ Relation.ReflTransGen (childStep table) pid x := by
  have hinv : collectInv table (descendantsFuel table) [pid] [] := by
    unfold collectInv descendantsFuel measureCard
    have hcard : (((table.map ProcEntry.pid).toFinset
        ∪ [pid].toFinset) \ ([] : List ℕ).toFinset).card
          ≤ table.length + 1 := by
      calc (((table.map ProcEntry.pid).toFinset
            ∪ [pid].toFinset) \ ([] : List ℕ).toFinset).card
          ≤ ((table.map ProcEntry.pid).toFinset ∪ [pid].toFinset).card :=
            Finset.card_le_card (Finset.sdiff_subset)
        _ ≤ (table.map ProcEntry.pid).toFinset.card
            + [pid].toFinset.card := Finset.card_union_le _ _
        _ ≤ (table.map ProcEntry.pid).length + 1 := by
            have h1 := (table.map ProcEntry.pid).toFinset_card_le
            have h2 : ([pid] : List ℕ).toFinset.card ≤ 1 :=
              ([pid] : List ℕ).toFinset_card_le
            omega
        _ = table.length + 1 := by rw [List.length_map]
    have hmul : ((((table.map ProcEntry.pid).toFinset
          ∪ [pid].toFinset) \ ([] : List ℕ).toFinset).card + 1)
            * (table.length + 1)
        ≤ (table.length + 2) * (table.length + 1) :=
      Nat.mul_le_mul_right _ (by omega)
    simp only [List.length_singleton]
    omega
  constructor
  · intro hx
    rcases collect_sound table (descendantsFuel table) [pid] [] x hx with
      hacc | ⟨t, ht, hr⟩
    · exact absurd hacc (List.not_mem_nil x)
    · rcases List.mem_singleton.mp ht with rfl
      exact hr
  · intro hr
    rcases collect_complete table (descendantsFuel table) [pid] [] hinv
      (fun a ha => absurd ha (List.not_mem_nil a)) with ⟨hlands, hcl⟩
    induction hr with
    | refl => exact hlands pid (List.mem_singleton_self pid)
    | tail hab hbc ih2 => exact hcl _ ih2 _ hbc

theorem descendants_nodup (table : List ProcEntry) (pid : ℕ) :
    (descendants table pid).Nodup :=
  collect_nodup table (descendantsFuel table) [pid] [] List.nodup_nil

theorem insertSorted_perm (n : ℕ) (l : List ℕ) :
    (insertSorted n l).Perm (n :: l) := by
  induction l with
  | nil => exact List.Perm.refl _
  | cons m rest ih =>
    unfold insertSorted
    by_cases h : n ≤ m
    · rw [if_pos h]
    · rw [if_neg h]
      exact (ih.cons m).trans (List.Perm.swap n m rest)

theorem sortPids_perm (l : List ℕ) : (sortPids l).Perm l := by
  unfold sortPids
  induction l with
  | nil => exact List.Perm.refl _
  | cons a tl ih =>
    rw [List.foldr_cons]
    exact (insertSorted_perm a _).trans (ih.cons a)

theorem aggFold_some (f : ProcEntry → Option ℕ) :
    ∀ (l : List ProcEntry) (n : ℕ),
      l.foldl (fun acc e => match f e with
        | some v => some (acc.getD 0 + v)
        | none => acc) (some n)
        = some (n + (l.filterMap f).sum) := by
  intro l
  induction l with
  | nil => intro n; simp
  | cons e tl ih =>
    intro n
    rw [List.foldl_cons, List.filterMap_cons]
    cases hf : f e with
    | none => simp only [hf]; rw [ih n]
    | some v =>
      simp only [hf, Option.getD_some]
      rw [ih (n + v), List.sum_cons]
      exact congrArg some (by ring)

theorem aggField_spec (l : List ProcEntry) (f : ProcEntry → Option ℕ) :
    aggField l f = optionSum (l.filterMap f) := by
  induction l with
  | nil => rfl
  | cons e tl ih =>
    unfold aggField at ih ⊢
    rw [List.foldl_cons, List.filterMap_cons]
    cases hf : f e with
    | none =>
      simp only [hf]
      exact ih
    | some v =>
      simp only [hf, Option.getD_none, Nat.zero_add]
      rw [aggFold_some f tl v]
      unfold optionSum
      simp

theorem optionSum_perm (l1 l2 : List ℕ) (h : l1.Perm l2) :
    optionSum l1 = optionSum l2 := by
  cases l1 with
  | nil =>
    rw [List.Perm.eq_nil h.symm]
  | cons a tl =>
    cases l2 with
    | nil => exact absurd (List.Perm.eq_nil h) (by simp)
    | cons b tl2 =>
      unfold optionSum
      simp only []
      exact congrArg some h.sum_eq

theorem statusEntry_some (table : List ProcEntry) (p : ℕ) (e : ProcEntry)
    (h : statusEntry table p = some e) : e ∈ table ∧ e.pid = p := by
  unfold statusEntry at h
  refine ⟨List.mem_of_find?_eq_some h, ?_⟩
  have := List.find?_some h
  exact eq_of_beq this

theorem statusEntry_of_mem (table : List ProcEntry)
    (hnodup : (table.map ProcEntry.pid).Nodup) (e : ProcEntry)
    (he : e ∈ table) : statusEntry table e.pid = some e := by
  cases hf : statusEntry table e.pid with
  | none =>
    exfalso
    unfold statusEntry at hf
    have := List.find?_eq_none.mp hf e he
    simp at this
  | some e2 =>
    rcases statusEntry_some table e.pid e2 hf with ⟨hmem2, hpid2⟩
    have := List.inj_on_of_nodup_map hnodup hmem2 he hpid2
    rw [this]

theorem entries_perm (table : List ProcEntry) (pid : ℕ)
    (hnodup : (table.map ProcEntry.pid).Nodup) :
    ((sortPids (descendants table pid)).filterMap (statusEntry table)).Perm
      (table.filter (fun e => decide (e.pid ∈ descendants table pid))) := by
  have hd1 : (sortPids (descendants table pid)).Nodup :=
    ((sortPids_perm (descendants table pid)).nodup_iff).mpr
      (descendants_nodup table pid)
  have hn1 : ((sortPids (descendants table pid)).filterMap
      (statusEntry table)).Nodup := by
    apply List.Nodup.filterMap _ hd1
    intro a a2 b hb hb2
    rcases statusEntry_some table a b (Option.mem_def.mp hb) with ⟨_, hpa⟩
    rcases statusEntry_some table a2 b (Option.mem_def.mp hb2) with ⟨_, hpa2⟩
    rw [← hpa, ← hpa2]
  have hn2 : (table.filter
      (fun e => decide (e.pid ∈ descendants table pid))).Nodup :=
    (List.Nodup.of_map ProcEntry.pid hnodup).filter _
  rw [List.perm_ext_iff_of_nodup hn1 hn2]
  intro e
  rw [List.mem_filterMap, List.mem_filter]
  constructor
  · rintro ⟨p, hp, hsome⟩
    rcases statusEntry_some table p e hsome with ⟨hmem, hpid⟩
    refine ⟨hmem, ?_⟩
    rw [decide_eq_true_eq, hpid]
    exact (sortPids_perm (descendants table pid)).mem_iff.mp hp
  · rintro ⟨hmem, hdec⟩
    refine ⟨e.pid, ?_, statusEntry_of_mem table hnodup e hmem⟩
    exact (sortPids_perm (descendants table pid)).mem_iff.mpr
      (decide_eq_true_eq.mp hdec)

/-- C9: memory sampling of a root pid returns none exactly when the root
status is unavailable; otherwise each MemoryStats field is the sum of that
field over the snapshot entries whose pid lies in the transitive descendant
set of the root (root included, membership being reachability over the
recorded parent-child edges), a field staying absent when no descendant
reports it; on the concrete snapshot the two live descendants holding 100
and 250 KB aggregate to 350 KB under a root with no resident-size field, a
process outside the subtree contributes nothing, and a vanished root
yields none. -/
theorem memory_sampling_aggregation (table : List ProcEntry) (pid : ℕ)
    (hnodup : (table.map ProcEntry.pid).Nodup) :
    (statusEntry table pid = none → readMemoryStats table pid = none)
      ∧ (∀ x, x ∈ descendants table pid
          ↔ Relation.ReflTransGen (childStep table) pid x)
      ∧ (∀ e0, statusEntry table pid = some e0 →
          readMemoryStats table pid = some
            ⟨optionSum ((table.filter
                (fun e => decide (e.pid ∈ descendants table pid))).filterMap
                  (fun e => e.vmRss)),
             optionSum ((table.filter
                (fun e => decide (e.pid ∈ descendants table pid))).filterMap
                  (fun e => e.vmPeak)),
             optionSum ((table.filter
                (fun e => decide (e.pid ∈ descendants table pid))).filterMap
                  (fun e => e.vmHwm)),
             optionSum ((table.filter
                (fun e => decide (e.pid ∈ descendants table pid))).filterMap
                  (fun e => e.vmSize)),
             optionSum ((table.filter
                (fun e => decide (e.pid ∈ descendants table pid))).filterMap
                  (fun e => e.vmSwap)),
             optionSum ((table.filter
                (fun e => decide (e.pid ∈ descendants table pid))).filterMap
                  (fun e => e.threads))⟩)
      ∧ readMemoryStats demoProcTable 10
          = some ⟨some 350, none, none, none, none, some 4⟩
      ∧ readMemoryStats demoProcTable 13 = none := by
  have hfield : ∀ f : ProcEntry → Option ℕ,
      aggField ((sortPids (descendants table pid)).filterMap
        (statusEntry table)) f
        = optionSum ((table.filter
            (fun e => decide (e.pid ∈ descendants table pid))).filterMap
              f) := by
    intro f
    rw [aggField_spec]
    exact optionSum_perm _ _ ((entries_perm table pid hnodup).filterMap f)
  refine ⟨?_, descendants_mem_iff table pid, ?_, by decide, by decide⟩
  · intro h
    simp [readMemoryStats, h]
  · intro e0 he0
    unfold readMemoryStats
    rw [if_pos (by rw [he0]; rfl)]
    simp only [hfield (fun e => e.vmRss), hfield (fun e => e.vmPeak),
      hfield (fun e => e.vmHwm), hfield (fun e => e.vmSize),
      hfield (fun e => e.vmSwap), hfield (fun e => e.threads)]

theorem memory_sampling_aggregation_witness :
    (statusEntry demoProcTable 10 = none →
        readMemoryStats demoProcTable 10 = none)
      ∧ (∀ x, x ∈ descendants demoProcTable 10
          ↔ Relation.ReflTransGen (childStep demoProcTable) 10 x)
      ∧ (∀ e0, statusEntry demoProcTable 10 = some e0 →
          readMemoryStats demoProcTable 10 = some
            ⟨optionSum ((demoProcTable.filter
                (fun e => decide
                  (e.pid ∈ descendants demoProcTable 10))).filterMap
                  (fun e => e.vmRss)),
             optionSum ((demoProcTable.filter
                (fun e => decide
                  (e.pid ∈ descendants demoProcTable 10))).filterMap
                  (fun e => e.vmPeak)),
             optionSum ((demoProcTable.filter
                (fun e => decide
                  (e.pid ∈ descendants demoProcTable 10))).filterMap
                  (fun e => e.vmHwm)),
             optionSum ((demoProcTable.filter
                (fun e => decide
                  (e.pid ∈ descendants demoProcTable 10))).filterMap
                  (fun e => e.vmSize)),
             optionSum ((demoProcTable.filter
                (fun e => decide
                  (e.pid ∈ descendants demoProcTable 10))).filterMap
                  (fun e => e.vmSwap)),
             optionSum ((demoProcTable.filter
                (fun e => decide
                  (e.pid ∈ descendants demoProcTable 10))).filterMap
                  (fun e => e.threads))⟩)
      ∧ readMemoryStats demoProcTable 10
          = some ⟨some 350, none, none, none, none, some 4⟩
      ∧ readMemoryStats demoProcTable 13 = none :=
  memory_sampling_aggregation demoProcTable 10 (by decide)

end Aeronet
